import Mathlib

/-!
# Verification of the `s3_folder_zipper` pipeline

Shallow embedding of `src/s3_folder_zipper.py`.  Python strings are modelled
as Lean `String` (operated on through their `List Char` data), the local
filesystem and both S3 buckets as association lists from path/key to file
data, and each pipeline stage (`_list_s3_files`, `_download_files`,
`_create_zip`, `_upload_zip`, `process_folders`) as a pure function that
returns the new state together with a log of the externally visible effects
(transfer attempts, uploads, archive builds) and an optional propagated
exception.
-/

namespace S3Zipper

/-- Rebuild a `String` from its character list (`String.mk`). -/
def ofChars (cs : List Char) : String := ⟨cs⟩

/-- Core of Python `str.split('/')`: returns the first component and the
remaining components of `cs` split at every `'/'`. -/
def splitSlashCore : List Char → List Char × List (List Char)
  | [] => ([], [])
  | c :: rest =>
    let r := splitSlashCore rest
    if c = '/' then ([], r.1 :: r.2) else (c :: r.1, r.2)

/-- Python `str.split('/')` on the character list of a string.  Always
returns a non-empty list of components. -/
def splitSlash (cs : List Char) : List (List Char) :=
  (splitSlashCore cs).1 :: (splitSlashCore cs).2

/-- Python `'/' in s`. -/
def containsSlash (s : String) : Bool := s.data.contains '/'

/-- Python `s.count('/')`. -/
def countSlash (s : String) : Nat := s.data.count '/'

/-- Python `s.endswith('/')`. -/
def endsSlash (s : String) : Bool := s.data.getLast? == some '/'

/-- Python `s.startswith('/')`. -/
def startsSlash (s : String) : Bool := s.data.head? == some '/'

/-- Python `os.path.basename` on POSIX: everything after the final `'/'`. -/
def fileBase (p : String) : String :=
  ofChars (p.data.reverse.takeWhile (fun c => !(c == '/'))).reverse

/-- Two-argument `os.path.join` with POSIX semantics, as used by the code
(`os.path.join(local_dir, local_path)` etc.). -/
def pathJoin (a b : String) : String :=
  if startsSlash b then b
  else if a == "" || endsSlash a then a ++ b
  else a ++ "/" ++ b

/-- Python `s.replace('\\', '/')` (applied to the destination key). -/
def replaceBackslash (s : String) : String :=
  ofChars (s.data.map (fun c => if c == '\\' then '/' else c))

/-- Python `pathlib.Path(s).parts` for a relative POSIX path: the slash-separated
components with empty components and `'.'` components dropped (`PurePath`
normalisation).  Keys starting with `'/'` (whose first part would be the
root marker) are outside the scope of this model. -/
def pythonParts (s : String) : List String :=
  ((splitSlash s.data).filter (fun l => !(l.isEmpty) && !(l == ['.']))).map ofChars

/-- The local-path flattening computed inside `_download_files`
(lines 155-166): an object key with no `'/'` (or a lone `name/` marker)
maps to its basename, otherwise only the last directory level and the file
name are kept.  When the key contains a `'/'` but has no parts at all the
Python code would raise `IndexError` on `path_parts[-1]`; that case is
unreachable for the keys in scope and modelled by the empty default. -/
def flattenDownload (file : String) : String :=
  if !(containsSlash file) || ((countSlash file == 1) && endsSlash file) then
    fileBase file
  else
    let pp := pythonParts file
    if 1 < pp.length then
      pathJoin (pp.getD (pp.length - 2) "") (pp.getLastD "")
    else
      pp.getLastD ""

/-- The in-archive entry name computed inside `_create_zip`
(lines 236-245) from the path relative to the files directory: same
last-folder-plus-filename rule. -/
def flattenZip (rel : String) : String :=
  let pp := pythonParts rel
  if 1 < pp.length then
    pathJoin (pp.getD (pp.length - 2) "") (pp.getLastD "")
  else
    pp.getLastD ""

/-- The key whose path segments are exactly `segs` (segments joined
by `'/'`). -/
def joinKey : List String → String
  | [] => ""
  | [s] => s
  | s :: t :: r => s ++ "/" ++ joinKey (t :: r)

/-- Well-formed segment: non-empty, contains no separator, and is not the
`'.'` component (which `pathlib` normalises away). -/
def GoodSeg (s : String) : Prop := s ≠ "" ∧ (∀ c ∈ s.data, c ≠ '/') ∧ s ≠ "."

/-! ## Lemmas about splitting and joining -/

theorem splitSlashCore_noslash {cs : List Char} (h : ∀ c ∈ cs, c ≠ '/') :
    splitSlashCore cs = (cs, []) := by
  induction cs with
  | nil => rfl
  | cons c rest ih =>
    have hc : c ≠ '/' := h c (List.mem_cons_self c rest)
    have hrest : ∀ c ∈ rest, c ≠ '/' := fun x hx => h x (List.mem_cons_of_mem c hx)
    simp [splitSlashCore, ih hrest, hc]

theorem splitSlash_noslash {cs : List Char} (h : ∀ c ∈ cs, c ≠ '/') :
    splitSlash cs = [cs] := by
  simp [splitSlash, splitSlashCore_noslash h]

theorem splitSlashCore_append {s : List Char} (r : List Char)
    (h : ∀ c ∈ s, c ≠ '/') :
    splitSlashCore (s ++ '/' :: r) = (s, splitSlash r) := by
  induction s with
  | nil => simp [splitSlashCore, splitSlash]
  | cons c s' ih =>
    have hc : c ≠ '/' := h c (List.mem_cons_self c s')
    have hs' : ∀ x ∈ s', x ≠ '/' := fun x hx => h x (List.mem_cons_of_mem c hx)
    simp [splitSlashCore, ih hs', hc]

theorem splitSlash_append {s : List Char} (r : List Char)
    (h : ∀ c ∈ s, c ≠ '/') :
    splitSlash (s ++ '/' :: r) = s :: splitSlash r := by
  simp [splitSlash, splitSlashCore_append r h]

/-- Splitting the join of well-formed segments recovers the segments. -/
theorem splitSlash_joinKey {segs : List String} (hne : segs ≠ [])
    (h : ∀ s ∈ segs, ∀ c ∈ s.data, c ≠ '/') :
    splitSlash (joinKey segs).data = segs.map String.data := by
  induction segs with
  | nil => exact absurd rfl hne
  | cons s rest ih =>
    cases rest with
    | nil =>
      simp [joinKey, List.map]
      exact splitSlash_noslash (h s (List.mem_cons_self s []))
    | cons t r =>
      have hdata : (joinKey (s :: t :: r)).data =
          s.data ++ '/' :: (joinKey (t :: r)).data := by
        simp [joinKey]
      rw [hdata, splitSlash_append _ (h s (List.mem_cons_self s _))]
      have := ih (by simp) (fun x hx => h x (List.mem_cons_of_mem s hx))
      simp [this]

theorem data_ne_nil {s : String} (h : s ≠ "") : s.data ≠ [] := by
  intro hd
  apply h
  cases s with
  | mk d => simp at hd; simp [hd]

theorem data_ne_dot {s : String} (h : s ≠ ".") : s.data ≠ ['.'] := by
  intro hd
  apply h
  cases s with
  | mk d => simp at hd; simp [hd]

theorem goodSeg_starts {s : String} (h : GoodSeg s) : startsSlash s = false := by
  obtain ⟨hne, hns, -⟩ := h
  unfold startsSlash
  cases hh : s.data.head? with
  | none => simp
  | some c =>
    have : c ∈ s.data := List.mem_of_mem_head? hh
    simp [hns c this]

theorem goodSeg_ends {s : String} (h : GoodSeg s) : endsSlash s = false := by
  obtain ⟨hne, hns, -⟩ := h
  unfold endsSlash
  cases hh : s.data.getLast? with
  | none => simp
  | some c =>
    have : c ∈ s.data := List.mem_of_mem_getLast? hh
    simp [hns c this]

theorem fileBase_noslash {s : String} (h : ∀ c ∈ s.data, c ≠ '/') :
    fileBase s = s := by
  unfold fileBase
  have : s.data.reverse.takeWhile (fun c => !(c == '/')) = s.data.reverse := by
    apply List.takeWhile_eq_self_iff.mpr
    intro a ha
    simp [h a (List.mem_reverse.mp ha)]
  rw [this, List.reverse_reverse]
  rfl

/-- The parts of a well-formed joined key are exactly its segments. -/
theorem pythonParts_joinKey {segs : List String} (hne : segs ≠ [])
    (h : ∀ s ∈ segs, GoodSeg s) :
    pythonParts (joinKey segs) = segs := by
  unfold pythonParts
  rw [splitSlash_joinKey hne (fun s hs => (h s hs).2.1)]
  have hfilter : (segs.map String.data).filter
      (fun l => !(l.isEmpty) && !(l == ['.'])) = segs.map String.data := by
    apply List.filter_eq_self.mpr
    intro l hl
    obtain ⟨s, hs, rfl⟩ := List.mem_map.mp hl
    have h1 : s.data ≠ [] := data_ne_nil (h s hs).1
    have h2 : s.data ≠ ['.'] := data_ne_dot (h s hs).2.2
    simp [List.isEmpty_iff, h1, h2]
  rw [hfilter, List.map_map]
  have : (ofChars ∘ String.data) = id := by
    funext s; rfl
  simp [this]

/-- The data of a well-formed joined key never ends with the separator. -/
theorem joinKey_getLast? {segs : List String} (hne : segs ≠ [])
    (h : ∀ s ∈ segs, GoodSeg s) :
    ∃ c, (joinKey segs).data.getLast? = some c ∧ c ≠ '/' := by
  induction segs with
  | nil => exact absurd rfl hne
  | cons s rest ih =>
    cases rest with
    | nil =>
      have hd : s.data ≠ [] := data_ne_nil (h s (List.mem_cons_self s [])).1
      have hc : s.data.getLast? = some (s.data.getLast hd) :=
        List.getLast?_eq_getLast _ hd
      refine ⟨s.data.getLast hd, by simpa [joinKey] using hc, ?_⟩
      exact (h s (List.mem_cons_self s [])).2.1 _ (List.getLast_mem hd)
    | cons t r =>
      obtain ⟨c, hc, hcne⟩ := ih (by simp) (fun x hx => h x (List.mem_cons_of_mem s hx))
      refine ⟨c, ?_, hcne⟩
      have hdata : (joinKey (s :: t :: r)).data =
          s.data ++ '/' :: (joinKey (t :: r)).data := by simp [joinKey]
      have hsplit : ('/' :: (joinKey (t :: r)).data) =
          ['/'] ++ (joinKey (t :: r)).data := rfl
      rw [hdata, List.getLast?_append, hsplit, List.getLast?_append, hc]
      rfl

theorem endsSlash_joinKey {segs : List String} (hne : segs ≠ [])
    (h : ∀ s ∈ segs, GoodSeg s) :
    endsSlash (joinKey segs) = false := by
  obtain ⟨c, hc, hcne⟩ := joinKey_getLast? hne h
  simp [endsSlash, hc, hcne]

theorem containsSlash_joinKey {s t : String} {r : List String} :
    containsSlash (joinKey (s :: t :: r)) = true := by
  have hdata : (joinKey (s :: t :: r)).data =
      s.data ++ '/' :: (joinKey (t :: r)).data := by simp [joinKey]
  have : '/' ∈ (joinKey (s :: t :: r)).data := by
    rw [hdata]; exact List.mem_append_right _ (List.mem_cons_self _ _)
  simpa [containsSlash] using this

theorem pathJoin_goodSegs {a b : String} (ha : GoodSeg a) (hb : GoodSeg b) :
    pathJoin a b = a ++ "/" ++ b := by
  unfold pathJoin
  rw [goodSeg_starts hb, goodSeg_ends ha]
  simp [ha.1]

/-- **C3.** For every object key whose well-formed path segments number at
least two, both the local-path flattening of `_download_files` and the
arcname flattening of `_create_zip` return exactly the second-to-last
segment joined to the last segment; for a single-segment key both return
the key unchanged. -/
theorem flatten_rule_correct (segs : List String) (hW : ∀ s ∈ segs, GoodSeg s) :
    (2 ≤ segs.length →
      flattenDownload (joinKey segs) =
        segs.getD (segs.length - 2) "" ++ "/" ++ segs.getLastD "" ∧
      flattenZip (joinKey segs) =
        segs.getD (segs.length - 2) "" ++ "/" ++ segs.getLastD "") ∧
    (segs.length = 1 →
      flattenDownload (joinKey segs) = joinKey segs ∧
      flattenZip (joinKey segs) = joinKey segs) := by
  constructor
  · intro hlen
    obtain ⟨s, t, r, rfl⟩ : ∃ s t r, segs = s :: t :: r := by
      match segs, hlen with
      | s :: t :: r, _ => exact ⟨s, t, r, rfl⟩
    have hne : (s :: t :: r : List String) ≠ [] := by simp
    have hparts := pythonParts_joinKey hne hW
    have hgetd : (s :: t :: r : List String).getD ((s :: t :: r).length - 2) "" ∈
        (s :: t :: r : List String) := by
      rw [List.getD_eq_getElem _ _ (by simp only [List.length_cons]; omega)]
      apply List.getElem_mem
    have hlast : (s :: t :: r : List String).getLastD "" ∈ (s :: t :: r : List String) := by
      rw [List.getLastD_eq_getLast?, List.getLast?_eq_getLast _ hne, Option.getD_some]
      exact List.getLast_mem hne
    have hjoin := pathJoin_goodSegs (hW _ hgetd) (hW _ hlast)
    constructor
    · simp only [flattenDownload, containsSlash_joinKey, endsSlash_joinKey hne hW,
        hparts, Bool.not_true, Bool.and_false, Bool.or_false]
      rw [if_neg (by simp), if_pos (by simp only [List.length_cons]; omega)]
      exact hjoin
    · simp only [flattenZip, hparts]
      rw [if_pos (by simp only [List.length_cons]; omega)]
      exact hjoin
  · intro hlen
    obtain ⟨s, rfl⟩ : ∃ s, segs = [s] := by
      match segs, hlen with
      | [s], _ => exact ⟨s, rfl⟩
    have hgood : GoodSeg s := hW s (List.mem_cons_self s [])
    have hkey : joinKey [s] = s := rfl
    have hcon : containsSlash (joinKey [s]) = false := by
      have hnm : '/' ∉ s.data := fun hm => hgood.2.1 '/' hm rfl
      simpa [containsSlash, hkey] using hnm
    constructor
    · simp only [flattenDownload, hcon, Bool.not_false, Bool.true_or]
      rw [if_pos trivial, hkey]
      exact fileBase_noslash hgood.2.1
    · simp only [flattenZip, pythonParts_joinKey (by simp : ([s] : List String) ≠ []) hW]
      rw [if_neg (by simp)]
      simp [hkey]

instance (s : String) : Decidable (GoodSeg s) := by
  unfold GoodSeg
  infer_instance

/-- Witness for `flatten_rule_correct` at the spec's concrete scenario. -/
theorem flatten_rule_correct_witness :
    flattenDownload (joinKey ["data", "jan", "a.csv"]) = "jan" ++ "/" ++ "a.csv" ∧
    flattenZip (joinKey ["data", "jan", "a.csv"]) = "jan" ++ "/" ++ "a.csv" := by
  have h := (flatten_rule_correct ["data", "jan", "a.csv"] (by decide)).1 (by decide)
  exact h

/-! ## Data model: file contents, filesystems, buckets -/

/-- The bytes stored in one file or S3 object.  `raw` is ordinary content;
`zipData entries firstBad` is a file that parses as a zip archive whose
entries map arcname to the archived bytes, with `firstBad` the result of
`ZipFile.testzip()` (the first corrupt entry name, `none` when every entry
passes the integrity check).  A `raw` file opened as a zip raises
`BadZipFile`. -/
inductive FileData where
  | raw (s : String)
  | zipData (entries : List (String × FileData)) (firstBad : Option String)

/-- Python `os.path.getsize`.  A zip file is never smaller than its 22-byte
end-of-central-directory record; the exact number is irrelevant because the
code only ever tests `size > 0`. -/
def FileData.fsize : FileData → Nat
  | raw s => s.length
  | zipData _ _ => 22

/-- A filesystem (or bucket): an association list from path (or key) to
file data; the first binding for a path wins. -/
abbrev FS := List (String × FileData)

/-- Look up a path. -/
def flookup (p : String) : FS → Option FileData
  | [] => none
  | e :: rest => if e.1 = p then some e.2 else flookup p rest

/-- Write (create or overwrite) a file. -/
def fset (p : String) (d : FileData) : FS → FS
  | [] => [(p, d)]
  | e :: rest => if e.1 = p then (p, d) :: rest else e :: fset p d rest

/-- Python `os.remove` (no-op when the path is absent, matching the guarded
`if os.path.exists: os.remove` uses in the code). -/
def ferase (p : String) : FS → FS
  | [] => []
  | e :: rest => if e.1 = p then ferase p rest else e :: ferase p rest

/-- Result of the `os.path.exists(p) and os.path.getsize(p) > 0` test:
the size of the file at `p`, zero when absent. -/
def sizeAt (fs : FS) (p : String) : Nat :=
  match flookup p fs with
  | some d => d.fsize
  | none => 0

theorem flookup_fset_self (p : String) (d : FileData) (fs : FS) :
    flookup p (fset p d fs) = some d := by
  induction fs with
  | nil => simp [fset, flookup]
  | cons e rest ih =>
    by_cases h : e.1 = p
    · simp [fset, h, flookup]
    · simp [fset, h, flookup, ih]

theorem flookup_fset_ne {p q : String} (hne : q ≠ p) (d : FileData) (fs : FS) :
    flookup q (fset p d fs) = flookup q fs := by
  induction fs with
  | nil =>
    simp only [fset, flookup]
    rw [if_neg (show ¬ p = q from fun hh => hne hh.symm)]
  | cons e rest ih =>
    by_cases h : e.1 = p
    · simp only [fset, if_pos h, flookup]
      rw [if_neg (show ¬ p = q from fun hh => hne hh.symm),
        if_neg (show ¬ e.1 = q from fun hh => hne ((h.symm.trans hh).symm))]
    · simp only [fset, if_neg h, flookup]
      by_cases h2 : e.1 = q
      · rw [if_pos h2, if_pos h2]
      · rw [if_neg h2, if_neg h2]
        exact ih

theorem flookup_ferase_self (p : String) (fs : FS) :
    flookup p (ferase p fs) = none := by
  induction fs with
  | nil => rfl
  | cons e rest ih =>
    by_cases h : e.1 = p
    · simpa [ferase, h] using ih
    · simp only [ferase, if_neg h, flookup]
      exact ih

theorem flookup_ferase_ne {p q : String} (hne : q ≠ p) (fs : FS) :
    flookup q (ferase p fs) = flookup q fs := by
  induction fs with
  | nil => rfl
  | cons e rest ih =>
    by_cases h : e.1 = p
    · have h2 : ¬ e.1 = q := fun hh => hne ((h.symm.trans hh).symm)
      simp only [ferase, if_pos h, flookup]
      rw [if_neg h2]
      exact ih
    · simp only [ferase, if_neg h, flookup]
      by_cases h2 : e.1 = q
      · rw [if_pos h2, if_pos h2]
      · rw [if_neg h2, if_neg h2]
        exact ih

theorem flookup_mem {fs : FS} {p : String} {e : String × FileData}
    (he : e ∈ fs) (hp : e.1 = p) : (flookup p fs).isSome := by
  induction fs with
  | nil => cases he
  | cons x rest ih =>
    rcases List.mem_cons.mp he with rfl | hmem
    · simp [flookup, hp]
    · by_cases h : x.1 = p
      · simp [flookup, h]
      · simp [flookup, h, ih hmem]

/-! ## Errors and external behaviours -/

/-- Python exceptions the pipeline can propagate. -/
inductive Err where
  | keyError (k : String)
  | clientError (code : String)
  | transferError
  | fileNotFound
  | zeroDivision
deriving DecidableEq

/-- Result of `s3_client.head_object` on one key. -/
inductive HeadRes where
  | found
  | errCode (code : String)
deriving DecidableEq

/-- Behaviour of one `s3_client.download_file` call: either the object's
data arrives in full, or the call raises, possibly leaving a partially
written file at the destination path. -/
inductive DLOutcome where
  | ok (d : FileData)
  | fails (leftover : Option FileData)

/-! ## Lister: `_list_s3_files` (lines 111-148) -/

/-- Stage `_list_s3_files`.  A prefix without trailing separator is probed with
`head_object`: found gives a singleton, a 404 gives the empty list (after a
warning), any other `ClientError` propagates.  A prefix with trailing
separator pages through the bucket, skipping the folder-marker key equal to
the prefix itself; listing order is bucket order. -/
def listS3Files (head : String → HeadRes) (bucket : FS) (pfx : String) :
    Except Err (List String) :=
  if endsSlash pfx = false then
    match head pfx with
    | .found => .ok [pfx]
    | .errCode c => if c = "404" then .ok [] else .error (.clientError c)
  else
    .ok ((bucket.filter
      (fun e => pfx.data.isPrefixOf e.1.data && !(e.1 == pfx))).map (·.1))

/-! ## Fetcher: `_download_files` (lines 150-195) -/

/-- Accumulated state of the `for file in files` loop of
`_download_files`: the local filesystem, the `downloaded_files` and
`skipped_files` lists, the log of keys for which a transfer was actually
attempted, and the exception that aborted the loop, if any. -/
structure DLRes where
  fs : FS
  downloaded : List String
  skipped : List String
  attempts : List String
  err : Option Err

/-- One iteration of the download loop.  An already-raised exception stops
all further work (the Python loop has unwound).  A destination that exists
with size above zero is recorded as skipped with no transfer; otherwise a
transfer is attempted, its failure removing whatever is at the destination
path before the exception propagates. -/
def downloadStep (beh : String → DLOutcome) (dir : String) (acc : DLRes)
    (file : String) : DLRes :=
  match acc.err with
  | some _ => acc
  | none =>
    let lfp := pathJoin dir (flattenDownload file)
    if 0 < sizeAt acc.fs lfp then
      { acc with skipped := acc.skipped ++ [lfp] }
    else
      let acc1 := { acc with attempts := acc.attempts ++ [file] }
      match beh file with
      | .ok d =>
        { acc1 with
          fs := fset lfp d acc1.fs
          downloaded := acc1.downloaded ++ [lfp] }
      | .fails leftover =>
        let fs1 := match leftover with
          | some d => fset lfp d acc1.fs
          | none => acc1.fs
        { acc1 with fs := ferase lfp fs1, err := some .transferError }

/-- Stage `_download_files` over the whole key list. -/
def downloadFiles (beh : String → DLOutcome) (files : List String)
    (dir : String) (fs0 : FS) : DLRes :=
  files.foldl (downloadStep beh dir) ⟨fs0, [], [], [], none⟩

/-- The value `_download_files` returns on success:
`downloaded_files + skipped_files`. -/
def DLRes.retFiles (r : DLRes) : List String := r.downloaded ++ r.skipped

/-! ## Configuration -/

/-- The `options` section of the YAML configuration.  Every field is read
with `.get` and a default, so missing fields are fine; a missing section is
modelled by `Config.options = none`. -/
structure Options where
  compression_level : Option Nat
  overwrite_s3 : Option Bool
  delete_local_after : Option Bool

/-- The validated configuration (`_load_config` only requires the four
required fields; everything else is optional).  `sources` models
`zip_config.source_prefixes` and `destPfx` models
`zip_config.destination_prefix` (renamed for Lean). -/
structure Config where
  source_bucket : String
  destination_bucket : String
  sources : List String
  output_zip_name : String
  destPfx : Option String
  local_directory : Option String
  options : Option Options

/-! ## Archiver: `_create_zip` (lines 197-251) -/

/-- Result of `_create_zip`: the filesystem, the archive path returned,
how many archives were actually written, and the propagated exception if
any. -/
structure ZipRes where
  fs : FS
  zipPath : String
  builds : Nat
  err : Option Err

/-- Whether `p` lies strictly under directory `dir`. -/
def isUnder (dir p : String) : Bool :=
  (dir ++ "/").data.isPrefixOf p.data

/-- Python `os.path.relpath(p, dir)` for a path under `dir`. -/
def stripDir (dir p : String) : String :=
  ofChars (p.data.drop (dir.data.length + 1))

/-- The entries written by the build loop of `_create_zip`: every file
under the directory whose basename is not the archive name itself, under
the arcname produced by the flattening rule, in filesystem order
(`os.walk` order is not specified by the design). -/
def zipEntries (fs : FS) (dir zipName : String) : List (String × FileData) :=
  (fs.filter (fun e => isUnder dir e.1 && !(fileBase e.1 == zipName))).map
    (fun e => (flattenZip (stripDir dir e.1), e.2))

/-- The rebuild path of `_create_zip` (lines 218-251): reading the
compression level accesses `self.config['options']`, raising `KeyError`
when the section is missing; otherwise a fresh valid archive is written at
the target path. -/
def buildZip (cfg : Config) (fs : FS) (dir zp : String) : ZipRes :=
  match cfg.options with
  | none => ⟨fs, zp, 0, some (.keyError "options")⟩
  | some opts =>
    let _level := opts.compression_level.getD 9
    ⟨fset zp (.zipData (zipEntries fs dir cfg.output_zip_name) none) fs,
      zp, 1, none⟩

/-- Stage `_create_zip`: reuse the existing archive when it opens and its
integrity check passes; on `BadZipFile` delete it and rebuild; on a failed
integrity check fall through to the rebuild (which truncates the file);
otherwise build from scratch. -/
def createZip (cfg : Config) (fs : FS) (dir : String) : ZipRes :=
  let zp := pathJoin dir cfg.output_zip_name
  match flookup zp fs with
  | some (.zipData _ none) => ⟨fs, zp, 0, none⟩
  | some (.zipData _ (some _)) => buildZip cfg fs dir zp
  | some (.raw _) => buildZip cfg (ferase zp fs) dir zp
  | none => buildZip cfg fs dir zp

/-! ## Publisher: `_upload_zip` (lines 253-284) -/

/-- Result of `_upload_zip`: the destination bucket, the destination keys
for which `upload_file` was invoked, and the propagated exception if
any. -/
structure UpRes where
  s3dst : FS
  uploads : List String
  err : Option Err

/-- The destination key: `os.path.join(dest_prefix,
os.path.basename(zip_path)).replace('\\', '/')`. -/
def destKey (cfg : Config) (zipPath : String) : String :=
  replaceBackslash (pathJoin (cfg.destPfx.getD "") (fileBase zipPath))

/-- The upload proper: one `upload_file` attempt; a missing local archive
raises. -/
def doUpload (s3dst fs : FS) (zipPath dk : String) : UpRes :=
  match flookup zipPath fs with
  | some d => ⟨fset dk d s3dst, [dk], none⟩
  | none => ⟨s3dst, [dk], some .fileNotFound⟩

/-- Stage `_upload_zip`: when `head_object` finds the destination key the
`overwrite_s3` option is consulted (raising `KeyError` when the `options`
section is missing); `False` returns without uploading, `True` uploads.
When the key is absent the upload proceeds directly. -/
def uploadZip (cfg : Config) (s3dst fs : FS) (zipPath : String) : UpRes :=
  let dk := destKey cfg zipPath
  match flookup dk s3dst with
  | some _ =>
    match cfg.options with
    | none => ⟨s3dst, [], some (.keyError "options")⟩
    | some opts =>
      if opts.overwrite_s3.getD false then doUpload s3dst fs zipPath dk
      else ⟨s3dst, [], none⟩
  | none => doUpload s3dst fs zipPath dk

/-! ## Orchestrator: `process_folders` (lines 286-376) -/

/-- The whole external world: source bucket, destination bucket, local
filesystem. -/
structure World where
  s3src : FS
  s3dst : FS
  fs : FS

/-- Probe `head_object` against the source bucket: found when the key is
present, a 404 `ClientError` otherwise. -/
def headSrc (w : World) : String → HeadRes := fun k =>
  match flookup k w.s3src with
  | some _ => .found
  | none => .errCode "404"

/-- Transfer `download_file` against the source bucket: the object's bytes when the
key is present, a raise leaving nothing otherwise. -/
def behSrc (w : World) : String → DLOutcome := fun k =>
  match flookup k w.s3src with
  | some d => .ok d
  | none => .fails none

/-- The keys `_list_s3_files` yields for one prefix of the source bucket
(pure form of `listS3Files` specialised to `headSrc`). -/
def pureList (w : World) (pfx : String) : List String :=
  if endsSlash pfx = false then
    match flookup pfx w.s3src with
    | some _ => [pfx]
    | none => []
  else
    (w.s3src.filter
      (fun e => pfx.data.isPrefixOf e.1.data && !(e.1 == pfx))).map (·.1)

/-- The listing loop of `process_folders` (lines 292-297): results of all
configured source prefixes concatenated in order. -/
def listAll (w : World) (cfg : Config) : Except Err (List String) :=
  cfg.sources.foldl
    (fun acc pfx => acc.bind
      (fun done => (listS3Files (headSrc w) w.s3src pfx).map (done ++ ·)))
    (.ok [])

/-- Pure form of `listAll` (against the source bucket the probe never
raises a non-404 error). -/
def listedKeys (w : World) (cfg : Config) : List String :=
  cfg.sources.foldl (fun acc pfx => acc ++ pureList w pfx) []

/-- The `total_size` accounting (lines 303-308): one `head_object` per
listed key, raising when a key is absent. -/
def totalSizeE (w : World) (files : List String) : Except Err Nat :=
  files.foldl
    (fun acc f => acc.bind (fun n =>
      match flookup f w.s3src with
      | some d => .ok (n + d.fsize)
      | none => .error (.clientError "404")))
    (.ok 0)

/-- The same sum with absent keys contributing zero (used to state
hypotheses). -/
def totalSizeVal (w : World) (files : List String) : Nat :=
  files.foldl
    (fun n f =>
      match flookup f w.s3src with
      | some d => n + d.fsize
      | none => n) 0

/-- Python `os.path.abspath` relative to the working directory, for the
normal-form paths in scope here. -/
def abspath (cwd p : String) : String :=
  if startsSlash p then p else pathJoin cwd p

/-- The local directory used by a run:
`os.path.abspath(config.get('local_directory', 'output'))`. -/
def localDirOf (cfg : Config) (cwd : String) : String :=
  abspath cwd (cfg.local_directory.getD "output")

/-- The archive path a run uses. -/
def zipPathOf (cfg : Config) (cwd : String) : String :=
  pathJoin (localDirOf cfg cwd) cfg.output_zip_name

/-- The cleanup block (lines 354-372): remove every file in
`downloaded_files` (the full list `_download_files` returned), remove the
archive, then best-effort `rmdir` of empty directories, which never
touches a file. -/
def cleanupFs (fs : FS) (files : List String) (zp : String) : FS :=
  ferase zp (files.foldl (fun acc f => ferase f acc) fs)

/-- Everything observable about one `process_folders` run: the final
world, the per-stage logs, the filesystem as it stood after the upload
stage (before any cleanup), and the propagated exception if any. -/
structure RunRes where
  w : World
  downloaded : List String
  skipped : List String
  attempts : List String
  uploads : List String
  builds : Nat
  fsPre : FS
  err : Option Err

/-- The tail of a real (non-dry) run after the listing, size accounting
and download stages: archive, upload, the compression-ratio computation
(which divides by `total_size` and raises `ZeroDivisionError` when it is
zero), and conditional cleanup (reading `options` raises `KeyError` when
the section is missing). -/
def stageTail (cfg : Config) (localDir : String) (w : World) (tot : Nat)
    (dl : DLRes) : RunRes :=
  match dl.err with
  | some e =>
    ⟨{ w with fs := dl.fs }, dl.downloaded, dl.skipped, dl.attempts,
      [], 0, dl.fs, some e⟩
  | none =>
    let z := createZip cfg dl.fs localDir
    match z.err with
    | some e =>
      ⟨{ w with fs := z.fs }, dl.downloaded, dl.skipped, dl.attempts,
        [], z.builds, z.fs, some e⟩
    | none =>
      let up := uploadZip cfg w.s3dst z.fs z.zipPath
      match up.err with
      | some e =>
        ⟨{ w with fs := z.fs, s3dst := up.s3dst }, dl.downloaded,
          dl.skipped, dl.attempts, up.uploads, z.builds, z.fs, some e⟩
      | none =>
        if tot = 0 then
          ⟨{ w with fs := z.fs, s3dst := up.s3dst }, dl.downloaded,
            dl.skipped, dl.attempts, up.uploads, z.builds, z.fs,
            some .zeroDivision⟩
        else
          match cfg.options with
          | none =>
            ⟨{ w with fs := z.fs, s3dst := up.s3dst }, dl.downloaded,
              dl.skipped, dl.attempts, up.uploads, z.builds, z.fs,
              some (.keyError "options")⟩
          | some opts =>
            if opts.delete_local_after.getD true then
              ⟨{ w with
                  fs := cleanupFs z.fs dl.retFiles z.zipPath,
                  s3dst := up.s3dst }, dl.downloaded, dl.skipped,
                dl.attempts, up.uploads, z.builds, z.fs, none⟩
            else
              ⟨{ w with fs := z.fs, s3dst := up.s3dst },
                dl.downloaded, dl.skipped, dl.attempts, up.uploads,
                z.builds, z.fs, none⟩

/-- Stage `process_folders`: list, early-return when nothing was found, size
accounting, dry-run branch, then download and the staged tail. -/
def processFolders (cfg : Config) (cwd : String) (dryRun : Bool)
    (w : World) : RunRes :=
  match listAll w cfg with
  | .error e => ⟨w, [], [], [], [], 0, w.fs, some e⟩
  | .ok files =>
    if files.isEmpty then ⟨w, [], [], [], [], 0, w.fs, none⟩
    else
      match totalSizeE w files with
      | .error e => ⟨w, [], [], [], [], 0, w.fs, some e⟩
      | .ok tot =>
        if dryRun then ⟨w, [], [], [], [], 0, w.fs, none⟩
        else
          stageTail cfg (localDirOf cfg cwd) w tot
            (downloadFiles (behSrc w) files (localDirOf cfg cwd) w.fs)

/-- The destination path `_simulate_process` reports in dry-run mode
(line 394): plain concatenation of the destination prefix and the archive
name. -/
def simulateDestPath (cfg : Config) : String :=
  "s3://" ++ cfg.destination_bucket ++ "/" ++ cfg.destPfx.getD "" ++
    cfg.output_zip_name

/-- The destination key a real run actually uploads to, rendered the same
way the upload log line renders it. -/
def realDestPath (cfg : Config) (cwd : String) : String :=
  "s3://" ++ cfg.destination_bucket ++ "/" ++ destKey cfg (zipPathOf cfg cwd)

/-! ## Claim C7: single-object listing -/

/-- **C7.** For a prefix without trailing separator the Lister probes the
single key with `head_object`: found yields the one-element list, a
404 yields the empty list (after a warning), and any other probe error
propagates to the caller. -/
theorem list_single_object (head : String → HeadRes) (bucket : FS)
    (pfx : String) (hp : endsSlash pfx = false) :
    (head pfx = .found → listS3Files head bucket pfx = .ok [pfx]) ∧
    (head pfx = .errCode "404" → listS3Files head bucket pfx = .ok []) ∧
    (∀ c, c ≠ "404" → head pfx = .errCode c →
      listS3Files head bucket pfx = .error (.clientError c)) := by
  refine ⟨fun hf => ?_, fun hf => ?_, fun c hc hf => ?_⟩
  · simp [listS3Files, hp, hf]
  · simp [listS3Files, hp, hf]
  · simp [listS3Files, hp, hf, hc]

/-- Witness for `list_single_object` at concrete probe behaviours. -/
theorem list_single_object_witness :
    listS3Files (fun _ => HeadRes.found) [] "k" = .ok ["k"] ∧
    listS3Files (fun _ => HeadRes.errCode "404") [] "k" = .ok [] ∧
    listS3Files (fun _ => HeadRes.errCode "403") [] "k" =
      .error (.clientError "403") :=
  ⟨(list_single_object (fun _ => .found) [] "k" (by decide)).1 rfl,
   (list_single_object (fun _ => .errCode "404") [] "k" (by decide)).2.1 rfl,
   (list_single_object (fun _ => .errCode "403") [] "k" (by decide)).2.2 "403"
     (by decide) rfl⟩

/-! ## Claim C6: publish gating -/

/-- **C6.** When the destination key already exists, `_upload_zip` with
`overwrite_s3 = False` performs no upload and returns normally reporting
the skip, while with `overwrite_s3 = True` it performs exactly one upload
attempt on that key. -/
theorem upload_gating (cfg : Config) (opts : Options) (s3dst fs : FS)
    (zipPath : String) (hopts : cfg.options = some opts)
    (hex : (flookup (destKey cfg zipPath) s3dst).isSome = true) :
    (opts.overwrite_s3.getD false = false →
      uploadZip cfg s3dst fs zipPath = ⟨s3dst, [], none⟩) ∧
    (opts.overwrite_s3.getD false = true →
      (uploadZip cfg s3dst fs zipPath).uploads = [destKey cfg zipPath]) := by
  obtain ⟨d, hd⟩ := Option.isSome_iff_exists.mp hex
  constructor <;> intro hov
  · simp [uploadZip, hd, hopts, hov]
  · simp only [uploadZip, hd, hopts, hov, if_pos rfl]
    cases hz : flookup zipPath fs <;> simp [doUpload, hz]

/-- Witness for `upload_gating`: existing destination key,
`overwrite_s3` unset (hence `False` by default). -/
theorem upload_gating_witness :
    uploadZip
      ⟨"src", "dst", [], "z.zip", none, none, some ⟨none, none, none⟩⟩
      [("z.zip", .raw "old")] [] "out/z.zip" =
      ⟨[("z.zip", .raw "old")], [], none⟩ :=
  (upload_gating ⟨"src", "dst", [], "z.zip", none, none, some ⟨none, none, none⟩⟩
    ⟨none, none, none⟩ [("z.zip", .raw "old")] [] "out/z.zip" rfl rfl).1 rfl

/-! ## Claim C4: archive reuse and rebuild -/

/-- **C4.** When the archive target exists it is opened and verified: a
passing integrity check returns the existing archive unchanged with no
rebuild; a parse failure deletes the file and rebuilds; a failing
integrity check rebuilds over it.  In both failure cases exactly one fresh
archive is written at the target. -/
theorem zip_reuse_or_rebuild (cfg : Config) (opts : Options) (fs : FS)
    (dir : String) (hopts : cfg.options = some opts) :
    (∀ es, flookup (pathJoin dir cfg.output_zip_name) fs =
        some (.zipData es none) →
      createZip cfg fs dir =
        ⟨fs, pathJoin dir cfg.output_zip_name, 0, none⟩) ∧
    (∀ s, flookup (pathJoin dir cfg.output_zip_name) fs = some (.raw s) →
      createZip cfg fs dir =
        ⟨fset (pathJoin dir cfg.output_zip_name)
            (.zipData (zipEntries (ferase (pathJoin dir cfg.output_zip_name) fs)
              dir cfg.output_zip_name) none)
            (ferase (pathJoin dir cfg.output_zip_name) fs),
          pathJoin dir cfg.output_zip_name, 1, none⟩) ∧
    (∀ es b, flookup (pathJoin dir cfg.output_zip_name) fs =
        some (.zipData es (some b)) →
      createZip cfg fs dir =
        ⟨fset (pathJoin dir cfg.output_zip_name)
            (.zipData (zipEntries fs dir cfg.output_zip_name) none) fs,
          pathJoin dir cfg.output_zip_name, 1, none⟩) := by
  refine ⟨fun es hz => ?_, fun s hz => ?_, fun es b hz => ?_⟩ <;>
    simp [createZip, hz, buildZip, hopts]

/-- Witness for `zip_reuse_or_rebuild`: a valid archive on disk is
returned unchanged. -/
theorem zip_reuse_or_rebuild_witness :
    createZip ⟨"src", "dst", [], "z.zip", none, none, some ⟨none, none, none⟩⟩
      [("out/z.zip", .zipData [] none)] "out" =
      ⟨[("out/z.zip", .zipData [] none)], pathJoin "out" "z.zip", 0, none⟩ :=
  (zip_reuse_or_rebuild
    ⟨"src", "dst", [], "z.zip", none, none, some ⟨none, none, none⟩⟩
    ⟨none, none, none⟩ [("out/z.zip", .zipData [] none)] "out" rfl).1 [] rfl

/-! ## Download-loop invariants -/

/-- A raised exception stops the loop: later iterations change nothing. -/
theorem downloadStep_err {beh : String → DLOutcome} {dir : String}
    {acc : DLRes} (h : acc.err.isSome) (g : String) :
    downloadStep beh dir acc g = acc := by
  unfold downloadStep
  cases he : acc.err with
  | some e => rfl
  | none => rw [he] at h; cases h

theorem downloadFold_err {beh : String → DLOutcome} {dir : String}
    {acc : DLRes} (h : acc.err.isSome) (gs : List String) :
    gs.foldl (downloadStep beh dir) acc = acc := by
  induction gs with
  | nil => rfl
  | cons g gs ih => rw [List.foldl_cons, downloadStep_err h g, ih]

/-- The skipped list only grows. -/
theorem downloadStep_skipped_mono {beh : String → DLOutcome} {dir : String}
    {acc : DLRes} {p : String} (h : p ∈ acc.skipped) (g : String) :
    p ∈ (downloadStep beh dir acc g).skipped := by
  unfold downloadStep
  cases acc.err with
  | some e => exact h
  | none =>
    dsimp only
    split
    · exact List.mem_append_left _ h
    · cases beh g with
      | ok d => exact h
      | fails leftover => exact h

theorem downloadFold_skipped_mono {beh : String → DLOutcome} {dir : String}
    {acc : DLRes} {p : String} (h : p ∈ acc.skipped) (gs : List String) :
    p ∈ (gs.foldl (downloadStep beh dir) acc).skipped := by
  induction gs generalizing acc with
  | nil => exact h
  | cons g gs ih => exact ih (downloadStep_skipped_mono h g)

/-- The invariant behind the skip rule: a destination path that is
non-empty keeps its content through every loop iteration, and the object
that flattens to it is never transferred. -/
theorem downloadStep_inv {beh : String → DLOutcome} {dir f : String}
    {acc : DLRes}
    (h : 0 < sizeAt acc.fs (pathJoin dir (flattenDownload f)) ∧
      f ∉ acc.attempts) (g : String) :
    0 < sizeAt (downloadStep beh dir acc g).fs
        (pathJoin dir (flattenDownload f)) ∧
      f ∉ (downloadStep beh dir acc g).attempts := by
  unfold downloadStep
  cases acc.err with
  | some e => exact h
  | none =>
    dsimp only
    by_cases hg : 0 < sizeAt acc.fs (pathJoin dir (flattenDownload g))
    · rw [if_pos hg]
      exact h
    · rw [if_neg hg]
      have hlne : pathJoin dir (flattenDownload g) ≠
          pathJoin dir (flattenDownload f) := by
        intro he
        rw [he] at hg
        exact hg h.1
      have hgf : g ≠ f := by
        intro he
        rw [he] at hg
        exact hg h.1
      have hattempts : f ∉ acc.attempts ++ [g] := by
        intro hm
        rcases List.mem_append.mp hm with hm | hm
        · exact h.2 hm
        · simp at hm
          exact hgf hm.symm
      cases beh g with
      | ok d =>
        refine ⟨?_, hattempts⟩
        dsimp only
        rw [sizeAt, flookup_fset_ne (fun he => hlne he.symm)]
        exact h.1
      | fails leftover =>
        refine ⟨?_, hattempts⟩
        dsimp only
        rw [sizeAt, flookup_ferase_ne (fun he => hlne he.symm)]
        cases leftover with
        | some d =>
          rw [flookup_fset_ne (fun he => hlne he.symm)]
          exact h.1
        | none => exact h.1

theorem downloadFold_inv {beh : String → DLOutcome} {dir f : String}
    {acc : DLRes}
    (h : 0 < sizeAt acc.fs (pathJoin dir (flattenDownload f)) ∧
      f ∉ acc.attempts) (gs : List String) :
    0 < sizeAt (gs.foldl (downloadStep beh dir) acc).fs
        (pathJoin dir (flattenDownload f)) ∧
      f ∉ (gs.foldl (downloadStep beh dir) acc).attempts := by
  induction gs generalizing acc with
  | nil => exact h
  | cons g gs ih => exact ih (downloadStep_inv h g)

/-- Once the invariant holds and `f` is still to come, a loop that runs to
completion reports `f`'s destination as skipped. -/
theorem downloadFold_reaches_skip {beh : String → DLOutcome} {dir f : String}
    {acc : DLRes} {gs : List String}
    (hinv : 0 < sizeAt acc.fs (pathJoin dir (flattenDownload f)) ∧
      f ∉ acc.attempts)
    (hmem : f ∈ gs)
    (hok : (gs.foldl (downloadStep beh dir) acc).err = none) :
    pathJoin dir (flattenDownload f) ∈
      (gs.foldl (downloadStep beh dir) acc).skipped := by
  induction gs generalizing acc with
  | nil => cases hmem
  | cons g gs ih =>
    rcases List.mem_cons.mp hmem with rfl | hmem'
    · cases he : acc.err with
      | some e =>
        rw [List.foldl_cons, downloadStep_err (by simp [he]) f,
          downloadFold_err (by simp [he]) gs] at hok
        rw [he] at hok
        cases hok
      | none =>
        rw [List.foldl_cons]
        apply downloadFold_skipped_mono
        unfold downloadStep
        rw [he]
        dsimp only
        rw [if_pos hinv.1]
        exact List.mem_append_right _ (List.mem_cons_self _ _)
    · exact ih (downloadStep_inv hinv g) hmem'
        (by rw [List.foldl_cons] at hok; exact hok)

/-! ## Claim C5: skip-if-exists -/

/-- **C5.** An object whose computed local destination already holds a
file of size above zero is never transferred by `_download_files`, and
when the loop runs to completion without an exception its destination path
is reported in the skipped list. -/
theorem skip_if_exists (beh : String → DLOutcome) (files : List String)
    (dir : String) (fs0 : FS) (f : String) (hf : f ∈ files)
    (hsz : 0 < sizeAt fs0 (pathJoin dir (flattenDownload f))) :
    f ∉ (downloadFiles beh files dir fs0).attempts ∧
    ((downloadFiles beh files dir fs0).err = none →
      pathJoin dir (flattenDownload f) ∈
        (downloadFiles beh files dir fs0).skipped) := by
  have hinv : 0 < sizeAt (⟨fs0, [], [], [], none⟩ : DLRes).fs
      (pathJoin dir (flattenDownload f)) ∧
      f ∉ (⟨fs0, [], [], [], none⟩ : DLRes).attempts := ⟨hsz, by simp⟩
  exact ⟨(downloadFold_inv hinv files).2,
    fun hok => downloadFold_reaches_skip hinv hf hok⟩

/-- Witness for `skip_if_exists`: one object, its destination already
present with one byte; the run ends cleanly with the path skipped. -/
theorem skip_if_exists_witness :
    "a/b/c" ∉ (downloadFiles (fun _ => .fails none) ["a/b/c"] "out"
      [("out/b/c", .raw "x")]).attempts ∧
    pathJoin "out" (flattenDownload "a/b/c") ∈
      (downloadFiles (fun _ => .fails none) ["a/b/c"] "out"
        [("out/b/c", .raw "x")]).skipped :=
  ⟨(skip_if_exists (fun _ => .fails none) ["a/b/c"] "out"
      [("out/b/c", .raw "x")] "a/b/c" (by decide) (by decide)).1,
   (skip_if_exists (fun _ => .fails none) ["a/b/c"] "out"
      [("out/b/c", .raw "x")] "a/b/c" (by decide) (by decide)).2 rfl⟩

/-! ## Claim C8: transfer-failure cleanup -/

/-- **C8 (amended).** When the transfer of one object fails, whatever sits
at that object's destination path is deleted, the run aborts with no
attempt on the remaining objects, and every other path — in particular
every file written by an earlier completed transfer at a different
destination path — is left exactly as it was.  (A completed transfer that
wrote an empty file at the same destination path as the failing object is
removed together with the partial file; see the counterexample.) -/
theorem transfer_failure_cleanup (beh : String → DLOutcome)
    (dir : String) (fs0 : FS) (pre : List String) (f : String)
    (post : List String) (leftover : Option FileData)
    (hok : (downloadFiles beh pre dir fs0).err = none)
    (hatt : ¬ 0 < sizeAt (downloadFiles beh pre dir fs0).fs
      (pathJoin dir (flattenDownload f)))
    (hfail : beh f = .fails leftover) :
    (downloadFiles beh (pre ++ f :: post) dir fs0).err =
      some .transferError ∧
    (downloadFiles beh (pre ++ f :: post) dir fs0).attempts =
      (downloadFiles beh pre dir fs0).attempts ++ [f] ∧
    (downloadFiles beh (pre ++ f :: post) dir fs0).downloaded =
      (downloadFiles beh pre dir fs0).downloaded ∧
    flookup (pathJoin dir (flattenDownload f))
      (downloadFiles beh (pre ++ f :: post) dir fs0).fs = none ∧
    (∀ q, q ≠ pathJoin dir (flattenDownload f) →
      flookup q (downloadFiles beh (pre ++ f :: post) dir fs0).fs =
        flookup q (downloadFiles beh pre dir fs0).fs) := by
  cases leftover with
  | none =>
    have hstep : downloadStep beh dir (downloadFiles beh pre dir fs0) f =
        { downloadFiles beh pre dir fs0 with
          attempts := (downloadFiles beh pre dir fs0).attempts ++ [f]
          fs := ferase (pathJoin dir (flattenDownload f))
            (downloadFiles beh pre dir fs0).fs
          err := some .transferError } := by
      unfold downloadStep
      rw [hok]
      dsimp only
      rw [if_neg hatt]
      simp only [hfail]
    have habs : downloadFiles beh (pre ++ f :: post) dir fs0 =
        downloadStep beh dir (downloadFiles beh pre dir fs0) f := by
      unfold downloadFiles
      rw [List.foldl_append, List.foldl_cons]
      apply downloadFold_err
      show (downloadStep beh dir (downloadFiles beh pre dir fs0) f).err.isSome
      rw [hstep]
      rfl
    rw [habs, hstep]
    exact ⟨rfl, rfl, rfl, flookup_ferase_self _ _,
      fun q hq => flookup_ferase_ne hq _⟩
  | some d =>
    have hstep : downloadStep beh dir (downloadFiles beh pre dir fs0) f =
        { downloadFiles beh pre dir fs0 with
          attempts := (downloadFiles beh pre dir fs0).attempts ++ [f]
          fs := ferase (pathJoin dir (flattenDownload f))
            (fset (pathJoin dir (flattenDownload f)) d
              (downloadFiles beh pre dir fs0).fs)
          err := some .transferError } := by
      unfold downloadStep
      rw [hok]
      dsimp only
      rw [if_neg hatt]
      simp only [hfail]
    have habs : downloadFiles beh (pre ++ f :: post) dir fs0 =
        downloadStep beh dir (downloadFiles beh pre dir fs0) f := by
      unfold downloadFiles
      rw [List.foldl_append, List.foldl_cons]
      apply downloadFold_err
      show (downloadStep beh dir (downloadFiles beh pre dir fs0) f).err.isSome
      rw [hstep]
      rfl
    rw [habs, hstep]
    refine ⟨rfl, rfl, rfl, flookup_ferase_self _ _, fun q hq => ?_⟩
    rw [flookup_ferase_ne hq, flookup_fset_ne hq]

/-- Witness for `transfer_failure_cleanup`: a single failing transfer on
an empty workspace aborts the run and leaves nothing behind. -/
theorem transfer_failure_cleanup_witness :
    (downloadFiles (fun _ => .fails none) ["k"] "out" []).err =
      some .transferError ∧
    flookup (pathJoin "out" (flattenDownload "k"))
      (downloadFiles (fun _ => .fails none) ["k"] "out" []).fs = none := by
  have h := transfer_failure_cleanup (fun _ => .fails none) "out" [] [] "k"
    [] none rfl (by decide) rfl
  exact ⟨h.1, h.2.2.2.1⟩

/-- Download behaviour exhibiting the C8 corner: the first key holds an
empty object, the second key's transfer fails. -/
def behCX : String → DLOutcome := fun k =>
  if k = "p/d/x" then .ok (.raw "") else .fails none

/-- Counterexample to C8 as stated: keys `p/d/x` and `q/d/x` flatten to
the same destination `out/d/x`.  The first transfer completes (writing an
empty file), the second fails, and the failure cleanup deletes the file
the first, completed transfer wrote — so a file from an earlier completed
transfer is not left in place. -/
theorem transfer_failure_deletes_completed :
    (downloadFiles behCX ["p/d/x", "q/d/x"] "out" []).downloaded =
      ["out/d/x"] ∧
    (downloadFiles behCX ["p/d/x", "q/d/x"] "out" []).err =
      some .transferError ∧
    flookup "out/d/x"
      (downloadFiles behCX ["p/d/x", "q/d/x"] "out" []).fs = none :=
  ⟨by decide, by decide, rfl⟩

/-! ## Orchestrator lemmas -/

/-- Against the source bucket the Lister never raises: its value is the
pure listing. -/
theorem listS3Files_headSrc (w : World) (pfx : String) :
    listS3Files (headSrc w) w.s3src pfx = .ok (pureList w pfx) := by
  unfold listS3Files pureList headSrc
  by_cases he : endsSlash pfx = false
  · rw [if_pos he, if_pos he]
    cases hf : flookup pfx w.s3src <;> simp
  · rw [if_neg he, if_neg he]

theorem listAll_ok (w : World) (cfg : Config) :
    listAll w cfg = .ok (listedKeys w cfg) := by
  unfold listAll listedKeys
  generalize ([] : List String) = acc
  induction cfg.sources generalizing acc with
  | nil => rfl
  | cons pfx rest ih =>
    rw [List.foldl_cons, List.foldl_cons]
    rw [show (Except.ok acc : Except Err (List String)).bind
        (fun done => (listS3Files (headSrc w) w.s3src pfx).map (done ++ ·)) =
        .ok (acc ++ pureList w pfx) by rw [listS3Files_headSrc]; rfl]
    exact ih _

/-- Every key the pure listing yields is present in the source bucket. -/
theorem pureList_present (w : World) (pfx : String) :
    ∀ f ∈ pureList w pfx, (flookup f w.s3src).isSome = true := by
  intro f hf
  unfold pureList at hf
  by_cases he : endsSlash pfx = false
  · rw [if_pos he] at hf
    cases hfl : flookup pfx w.s3src with
    | some d => rw [hfl] at hf; simp at hf; rw [hf, hfl]; rfl
    | none => rw [hfl] at hf; cases hf
  · rw [if_neg he] at hf
    obtain ⟨e, he2, rfl⟩ := List.mem_map.mp hf
    exact flookup_mem (List.mem_of_mem_filter he2) rfl

theorem listedKeys_present (w : World) (cfg : Config) :
    ∀ f ∈ listedKeys w cfg, (flookup f w.s3src).isSome = true := by
  unfold listedKeys
  suffices h : ∀ (srcs acc : List String),
      (∀ f ∈ acc, (flookup f w.s3src).isSome = true) →
      ∀ f ∈ srcs.foldl (fun a p => a ++ pureList w p) acc,
        (flookup f w.s3src).isSome = true by
    exact h cfg.sources [] (fun f hf => absurd hf (List.not_mem_nil f))
  intro srcs
  induction srcs with
  | nil => intro acc hacc f hf; exact hacc f hf
  | cons p rest ih =>
    intro acc hacc f hf
    rw [List.foldl_cons] at hf
    refine ih _ ?_ f hf
    intro g hg
    rcases List.mem_append.mp hg with hg | hg
    · exact hacc g hg
    · exact pureList_present w p g hg

/-- When every listed key is present, the size-accounting pass succeeds
with the pure total. -/
theorem totalSizeE_ok (w : World) (files : List String)
    (h : ∀ f ∈ files, (flookup f w.s3src).isSome = true) :
    totalSizeE w files = .ok (totalSizeVal w files) := by
  unfold totalSizeE totalSizeVal
  generalize 0 = n
  induction files generalizing n with
  | nil => rfl
  | cons f rest ih =>
    rw [List.foldl_cons, List.foldl_cons]
    obtain ⟨d, hd⟩ := Option.isSome_iff_exists.mp (h f (List.mem_cons_self f rest))
    rw [show (Except.ok n : Except Err Nat).bind (fun m =>
        match flookup f w.s3src with
        | some d => Except.ok (m + d.fsize)
        | none => Except.error (Err.clientError "404")) = .ok (n + d.fsize) by
      rw [Except.bind, hd]]
    rw [hd]
    exact ih (fun g hg => h g (List.mem_cons_of_mem f hg)) _

theorem totalSizeE_listed (w : World) (cfg : Config) :
    totalSizeE w (listedKeys w cfg) = .ok (totalSizeVal w (listedKeys w cfg)) :=
  totalSizeE_ok w _ (listedKeys_present w cfg)

/-- An empty concatenated listing makes the run a no-op. -/
theorem processFolders_empty (cfg : Config) (cwd : String) (dryRun : Bool)
    (w : World) (hne : (listedKeys w cfg).isEmpty = true) :
    processFolders cfg cwd dryRun w = ⟨w, [], [], [], [], 0, w.fs, none⟩ := by
  unfold processFolders
  rw [listAll_ok]
  dsimp only
  rw [hne]
  rfl

/-- A real run with a non-empty listing is the download stage followed by
the staged tail. -/
theorem processFolders_run (cfg : Config) (cwd : String) (w : World)
    (hne : (listedKeys w cfg).isEmpty = false) :
    processFolders cfg cwd false w =
      stageTail cfg (localDirOf cfg cwd) w (totalSizeVal w (listedKeys w cfg))
        (downloadFiles (behSrc w) (listedKeys w cfg) (localDirOf cfg cwd)
          w.fs) := by
  unfold processFolders
  rw [listAll_ok]
  dsimp only
  rw [hne, totalSizeE_listed]
  rfl

/-- When every requested object is already present with positive size the
download loop only appends to the skipped list. -/
theorem downloadFold_all_skip {beh : String → DLOutcome} {dir : String} :
    ∀ {files : List String} {acc : DLRes}, acc.err = none →
    (∀ f ∈ files, 0 < sizeAt acc.fs (pathJoin dir (flattenDownload f))) →
    files.foldl (downloadStep beh dir) acc =
      { acc with skipped := acc.skipped ++
          files.map (fun f => pathJoin dir (flattenDownload f)) } := by
  intro files
  induction files with
  | nil => intro acc herr hsz; simp
  | cons f rest ih =>
    intro acc herr hsz
    rw [List.foldl_cons]
    have hstep : downloadStep beh dir acc f =
        { acc with skipped := acc.skipped ++
            [pathJoin dir (flattenDownload f)] } := by
      unfold downloadStep
      rw [herr]
      dsimp only
      rw [if_pos (hsz f (List.mem_cons_self f rest))]
    rw [hstep,
      @ih { acc with skipped := acc.skipped ++ [pathJoin dir (flattenDownload f)] }
        herr (fun g hg => hsz g (List.mem_cons_of_mem f hg))]
    simp [List.append_assoc]

/-- Stage `_create_zip` always reports the target path. -/
theorem createZip_zipPath (cfg : Config) (fs : FS) (dir : String) :
    (createZip cfg fs dir).zipPath = pathJoin dir cfg.output_zip_name := by
  simp only [createZip]
  cases hfl : flookup (pathJoin dir cfg.output_zip_name) fs with
  | none =>
    simp only [buildZip]
    cases cfg.options <;> rfl
  | some d =>
    cases d with
    | raw s =>
      simp only [buildZip]
      cases cfg.options <;> rfl
    | zipData es b =>
      cases b with
      | none => rfl
      | some bad =>
        simp only [buildZip]
        cases cfg.options <;> rfl

/-! ## Cleanup lemmas -/

theorem flookup_eraseAll_none {p : String} :
    ∀ (files : List String) (fs : FS), flookup p fs = none →
    flookup p (files.foldl (fun acc f => ferase f acc) fs) = none := by
  intro files
  induction files with
  | nil => intro fs h; exact h
  | cons f rest ih =>
    intro fs h
    rw [List.foldl_cons]
    refine ih _ ?_
    by_cases hf : p = f
    · rw [hf]; exact flookup_ferase_self f fs
    · rw [flookup_ferase_ne hf]; exact h

theorem flookup_eraseAll_mem {p : String} :
    ∀ {files : List String} (fs : FS), p ∈ files →
    flookup p (files.foldl (fun acc f => ferase f acc) fs) = none := by
  intro files
  induction files with
  | nil => intro fs h; cases h
  | cons f rest ih =>
    intro fs h
    rw [List.foldl_cons]
    rcases List.mem_cons.mp h with rfl | h
    · exact flookup_eraseAll_none rest _ (flookup_ferase_self p fs)
    · exact ih _ h

theorem flookup_eraseAll_other {p : String} :
    ∀ {files : List String} (fs : FS), p ∉ files →
    flookup p (files.foldl (fun acc f => ferase f acc) fs) = flookup p fs := by
  intro files
  induction files with
  | nil => intro fs _; rfl
  | cons f rest ih =>
    intro fs h
    rw [List.foldl_cons, ih _ (fun hm => h (List.mem_cons_of_mem f hm)),
      flookup_ferase_ne
        (show p ≠ f from fun he => h (he ▸ List.mem_cons_self f rest))]

theorem flookup_cleanup_mem {p : String} {files : List String} (fs : FS)
    (zp : String) (h : p ∈ files) :
    flookup p (cleanupFs fs files zp) = none := by
  unfold cleanupFs
  by_cases hz : p = zp
  · rw [hz]; exact flookup_ferase_self zp _
  · rw [flookup_ferase_ne hz]; exact flookup_eraseAll_mem fs h

theorem flookup_cleanup_zip (fs : FS) (files : List String) (zp : String) :
    flookup zp (cleanupFs fs files zp) = none :=
  flookup_ferase_self zp _

theorem flookup_cleanup_other {p : String} {files : List String} (fs : FS)
    {zp : String} (h : p ∉ files) (hz : p ≠ zp) :
    flookup p (cleanupFs fs files zp) = flookup p fs := by
  unfold cleanupFs
  rw [flookup_ferase_ne hz]
  exact flookup_eraseAll_other fs h

/-! ## Claim C1: idempotence -/

/-- A run from a populated state — every listed object already present
locally with positive size, a valid archive at the target, the destination
key present remotely — with `overwrite_s3` resolving to `False` and
cleanup disabled changes nothing and performs no transfer and no
upload. -/
theorem processFolders_populated (cfg : Config) (cwd : String) (w : World)
    (opts : Options) (es : List (String × FileData))
    (hopts : cfg.options = some opts)
    (hov : opts.overwrite_s3.getD false = false)
    (hdel : opts.delete_local_after.getD true = false)
    (hskip : ∀ f ∈ listedKeys w cfg,
      0 < sizeAt w.fs (pathJoin (localDirOf cfg cwd) (flattenDownload f)))
    (hzip : flookup (zipPathOf cfg cwd) w.fs = some (.zipData es none))
    (hdst : (flookup (destKey cfg (zipPathOf cfg cwd)) w.s3dst).isSome = true) :
    (processFolders cfg cwd false w).w = w ∧
    (processFolders cfg cwd false w).attempts = [] ∧
    (processFolders cfg cwd false w).downloaded = [] ∧
    (processFolders cfg cwd false w).uploads = [] := by
  cases hne : (listedKeys w cfg).isEmpty with
  | true =>
    rw [processFolders_empty cfg cwd false w hne]
    exact ⟨rfl, rfl, rfl, rfl⟩
  | false =>
    rw [processFolders_run cfg cwd w hne]
    have hdl := @downloadFold_all_skip (behSrc w) (localDirOf cfg cwd)
      (listedKeys w cfg) ⟨w.fs, [], [], [], none⟩ rfl hskip
    show _ ∧ _ ∧ _ ∧ _
    rw [show downloadFiles (behSrc w) (listedKeys w cfg) (localDirOf cfg cwd)
        w.fs = (⟨w.fs, [],
          [] ++ (listedKeys w cfg).map
            (fun f => pathJoin (localDirOf cfg cwd) (flattenDownload f)),
          [], none⟩ : DLRes) from hdl]
    unfold stageTail
    dsimp only
    have hz : createZip cfg w.fs (localDirOf cfg cwd) =
        ⟨w.fs, zipPathOf cfg cwd, 0, none⟩ := by
      simp only [createZip]
      rw [show pathJoin (localDirOf cfg cwd) cfg.output_zip_name =
          zipPathOf cfg cwd from rfl, hzip]
    rw [hz]
    dsimp only
    have hup : uploadZip cfg w.s3dst w.fs (zipPathOf cfg cwd) =
        ⟨w.s3dst, [], none⟩ := by
      obtain ⟨d, hd⟩ := Option.isSome_iff_exists.mp hdst
      simp [uploadZip, hd, hopts, hov]
    rw [hup]
    by_cases ht : totalSizeVal w (listedKeys w cfg) = 0
    · rw [if_pos ht]
      exact ⟨rfl, rfl, rfl, rfl⟩
    · rw [if_neg ht, hopts]
      dsimp only
      rw [if_neg (show ¬ (opts.delete_local_after.getD true = true) by
        rw [hdel]; exact Bool.false_ne_true)]
      exact ⟨rfl, rfl, rfl, rfl⟩

/-- **C1.** Running `process_folders` twice against an unchanged remote
object set, from a populated workspace (every listed object present
locally with positive size, a valid archive on disk, the destination key
already present remotely), with `overwrite_s3` resolving to `False` — and
cleanup disabled, which the precondition that the workspace is still
populated at the second run presupposes — performs zero downloads and zero
uploads on both runs, and the archive content after the second run is
identical to the content after the first. -/
theorem pipeline_idempotent (cfg : Config) (cwd : String) (w : World)
    (opts : Options) (es : List (String × FileData))
    (hopts : cfg.options = some opts)
    (hov : opts.overwrite_s3.getD false = false)
    (hdel : opts.delete_local_after.getD true = false)
    (hskip : ∀ f ∈ listedKeys w cfg,
      0 < sizeAt w.fs (pathJoin (localDirOf cfg cwd) (flattenDownload f)))
    (hzip : flookup (zipPathOf cfg cwd) w.fs = some (.zipData es none))
    (hdst : (flookup (destKey cfg (zipPathOf cfg cwd)) w.s3dst).isSome = true) :
    (processFolders cfg cwd false w).attempts = [] ∧
    (processFolders cfg cwd false w).downloaded = [] ∧
    (processFolders cfg cwd false w).uploads = [] ∧
    (processFolders cfg cwd false (processFolders cfg cwd false w).w).attempts
      = [] ∧
    (processFolders cfg cwd false (processFolders cfg cwd false w).w).downloaded
      = [] ∧
    (processFolders cfg cwd false (processFolders cfg cwd false w).w).uploads
      = [] ∧
    flookup (zipPathOf cfg cwd)
        (processFolders cfg cwd false
          (processFolders cfg cwd false w).w).w.fs =
      flookup (zipPathOf cfg cwd) (processFolders cfg cwd false w).w.fs ∧
    flookup (zipPathOf cfg cwd) (processFolders cfg cwd false w).w.fs =
      some (.zipData es none) := by
  have h1 := processFolders_populated cfg cwd w opts es hopts hov hdel hskip
    hzip hdst
  refine ⟨h1.2.1, h1.2.2.1, h1.2.2.2, ?_, ?_, ?_, ?_, ?_⟩ <;> rw [h1.1]
  · exact h1.2.1
  · exact h1.2.2.1
  · exact h1.2.2.2
  · rw [h1.1]
  · exact hzip

/-- Witness for `pipeline_idempotent`: a one-object bucket, its file and a
valid archive already on disk, the archive already published. -/
theorem pipeline_idempotent_witness :
    (processFolders
      ⟨"src", "dst", ["a/"], "z.zip", none, none,
        some ⟨none, some false, some false⟩⟩ "/w" false
      ⟨[("a/b/x", .raw "hi")], [("z.zip", .raw "old")],
        [("/w/output/b/x", .raw "hi"),
         ("/w/output/z.zip", .zipData [("b/x", .raw "hi")] none)]⟩).attempts
      = [] ∧
    (processFolders
      ⟨"src", "dst", ["a/"], "z.zip", none, none,
        some ⟨none, some false, some false⟩⟩ "/w" false
      ⟨[("a/b/x", .raw "hi")], [("z.zip", .raw "old")],
        [("/w/output/b/x", .raw "hi"),
         ("/w/output/z.zip", .zipData [("b/x", .raw "hi")] none)]⟩).uploads
      = [] :=
  ⟨(pipeline_idempotent
      ⟨"src", "dst", ["a/"], "z.zip", none, none,
        some ⟨none, some false, some false⟩⟩ "/w"
      ⟨[("a/b/x", .raw "hi")], [("z.zip", .raw "old")],
        [("/w/output/b/x", .raw "hi"),
         ("/w/output/z.zip", .zipData [("b/x", .raw "hi")] none)]⟩
      ⟨none, some false, some false⟩ [("b/x", .raw "hi")]
      rfl rfl rfl (by decide) rfl rfl).1,
   (pipeline_idempotent
      ⟨"src", "dst", ["a/"], "z.zip", none, none,
        some ⟨none, some false, some false⟩⟩ "/w"
      ⟨[("a/b/x", .raw "hi")], [("z.zip", .raw "old")],
        [("/w/output/b/x", .raw "hi"),
         ("/w/output/z.zip", .zipData [("b/x", .raw "hi")] none)]⟩
      ⟨none, some false, some false⟩ [("b/x", .raw "hi")]
      rfl rfl rfl (by decide) rfl rfl).2.2.1⟩

/-! ## Claim C2: cleanup -/

/-- A run whose tail finishes without an exception and with cleanup
enabled ends with the filesystem equal to the post-upload filesystem
cleaned of the fetch stage's returned files and the archive. -/
theorem stageTail_cleanup (cfg : Config) (localDir : String) (w : World)
    (tot : Nat) (dl : DLRes) (opts : Options)
    (hopts : cfg.options = some opts)
    (hdel : opts.delete_local_after.getD true = true)
    (herr : (stageTail cfg localDir w tot dl).err = none) :
    (stageTail cfg localDir w tot dl).w.fs =
      cleanupFs (stageTail cfg localDir w tot dl).fsPre
        ((stageTail cfg localDir w tot dl).downloaded ++
          (stageTail cfg localDir w tot dl).skipped)
        (pathJoin localDir cfg.output_zip_name) := by
  unfold stageTail at herr ⊢
  cases hde : dl.err with
  | some e => rw [hde] at herr; simp at herr
  | none =>
    rw [hde] at herr
    dsimp only at herr ⊢
    cases hze : (createZip cfg dl.fs localDir).err with
    | some e => rw [hze] at herr; simp at herr
    | none =>
      rw [hze] at herr
      dsimp only at herr ⊢
      cases hue : (uploadZip cfg w.s3dst (createZip cfg dl.fs localDir).fs
          (createZip cfg dl.fs localDir).zipPath).err with
      | some e => rw [hue] at herr; simp at herr
      | none =>
        rw [hue] at herr
        dsimp only at herr ⊢
        by_cases htot : tot = 0
        · rw [if_pos htot] at herr; simp at herr
        · rw [if_neg htot] at herr ⊢
          rw [hopts] at herr ⊢
          dsimp only at herr ⊢
          rw [if_pos hdel]
          dsimp only [DLRes.retFiles]
          rw [createZip_zipPath]


/-- **C2 (amended).** With cleanup enabled, the cleanup phase of a
successfully completed non-empty run deletes every local file in the list
the fetch stage returned — both the downloaded files and the
skipped-and-reused files — together with the archive file, and removes no
other file (only empty directories and the local root are otherwise
removed). -/
theorem cleanup_removes_fetched (cfg : Config) (cwd : String) (w : World)
    (opts : Options)
    (hopts : cfg.options = some opts)
    (hdel : opts.delete_local_after.getD true = true)
    (hne : (listedKeys w cfg).isEmpty = false)
    (herr : (processFolders cfg cwd false w).err = none) :
    (∀ p ∈ (processFolders cfg cwd false w).downloaded ++
        (processFolders cfg cwd false w).skipped,
      flookup p (processFolders cfg cwd false w).w.fs = none) ∧
    flookup (zipPathOf cfg cwd) (processFolders cfg cwd false w).w.fs
      = none ∧
    (∀ q, q ∉ (processFolders cfg cwd false w).downloaded ++
        (processFolders cfg cwd false w).skipped →
      q ≠ zipPathOf cfg cwd →
      flookup q (processFolders cfg cwd false w).w.fs =
        flookup q (processFolders cfg cwd false w).fsPre) := by
  rw [processFolders_run cfg cwd w hne] at herr
  have hst := stageTail_cleanup cfg (localDirOf cfg cwd) w
    (totalSizeVal w (listedKeys w cfg))
    (downloadFiles (behSrc w) (listedKeys w cfg) (localDirOf cfg cwd) w.fs)
    opts hopts hdel herr
  rw [show pathJoin (localDirOf cfg cwd) cfg.output_zip_name =
    zipPathOf cfg cwd from rfl] at hst
  rw [processFolders_run cfg cwd w hne]
  refine ⟨fun p hp => ?_, ?_, fun q hq hqz => ?_⟩
  · rw [hst]
    exact flookup_cleanup_mem _ _ hp
  · rw [hst]
    exact flookup_cleanup_zip _ _ _
  · rw [hst]
    exact flookup_cleanup_other _ hq hqz

/-- Witness for `cleanup_removes_fetched`: a run that skips its one object
and builds and uploads a fresh archive; afterwards the archive is gone
from the local directory. -/
theorem cleanup_removes_fetched_witness :
    flookup (zipPathOf
        ⟨"src", "dst", ["a/"], "z.zip", none, none,
          some ⟨none, none, none⟩⟩ "/w")
      (processFolders
        ⟨"src", "dst", ["a/"], "z.zip", none, none,
          some ⟨none, none, none⟩⟩ "/w" false
        ⟨[("a/b/x", .raw "hi")], [],
          [("/w/output/b/x", .raw "hi")]⟩).w.fs = none :=
  (cleanup_removes_fetched
    ⟨"src", "dst", ["a/"], "z.zip", none, none, some ⟨none, none, none⟩⟩
    "/w" ⟨[("a/b/x", .raw "hi")], [], [("/w/output/b/x", .raw "hi")]⟩
    ⟨none, none, none⟩ rfl rfl rfl rfl).2.1

/-- Counterexample to C2 as stated: `process_folders` iterates over the
full list `_download_files` returned — downloaded plus skipped — so the
cleanup phase deletes the skipped-and-reused file `/w/output/b/x` (present
with positive size before the run and reported skipped) even though the
claim says skipped files are left in place. -/
theorem cleanup_deletes_skipped_file :
    (processFolders
      ⟨"src", "dst", ["a/"], "z.zip", none, none, some ⟨none, none, none⟩⟩
      "/w" false
      ⟨[("a/b/x", .raw "hi")], [], [("/w/output/b/x", .raw "hi")]⟩).skipped
      = ["/w/output/b/x"] ∧
    (processFolders
      ⟨"src", "dst", ["a/"], "z.zip", none, none, some ⟨none, none, none⟩⟩
      "/w" false
      ⟨[("a/b/x", .raw "hi")], [], [("/w/output/b/x", .raw "hi")]⟩).err
      = none ∧
    flookup "/w/output/b/x"
      (processFolders
        ⟨"src", "dst", ["a/"], "z.zip", none, none, some ⟨none, none, none⟩⟩
        "/w" false
        ⟨[("a/b/x", .raw "hi")], [], [("/w/output/b/x", .raw "hi")]⟩).w.fs
      = none :=
  ⟨by decide, by decide, rfl⟩

/-! ## Claim C9: missing `options` section raises `KeyError` -/

/-- **C9.** A configuration that passes `_load_config` validation but has
no `options` section makes every stage that reads
`self.config['options']` raise `KeyError` instead of applying the
documented defaults: `_create_zip` whenever it cannot reuse a valid
existing archive, the overwrite check of `_upload_zip` whenever the
destination key exists, and the cleanup branch of `process_folders` on a
run that reaches it. -/
theorem missing_options_keyError (cfg : Config) (hopts : cfg.options = none) :
    (∀ fs dir, (∀ es, flookup (pathJoin dir cfg.output_zip_name) fs ≠
        some (.zipData es none)) →
      (createZip cfg fs dir).err = some (.keyError "options")) ∧
    (∀ s3dst fs zipPath, (flookup (destKey cfg zipPath) s3dst).isSome = true →
      uploadZip cfg s3dst fs zipPath = ⟨s3dst, [], some (.keyError "options")⟩) ∧
    (∀ cwd w es, (listedKeys w cfg).isEmpty = false →
      (∀ f ∈ listedKeys w cfg,
        0 < sizeAt w.fs (pathJoin (localDirOf cfg cwd) (flattenDownload f))) →
      flookup (zipPathOf cfg cwd) w.fs = some (.zipData es none) →
      flookup (destKey cfg (zipPathOf cfg cwd)) w.s3dst = none →
      totalSizeVal w (listedKeys w cfg) ≠ 0 →
      (processFolders cfg cwd false w).err = some (.keyError "options")) := by
  refine ⟨fun fs dir h => ?_, fun s3dst fs zipPath hex => ?_,
    fun cwd w es hne hskip hzip hdst htot => ?_⟩
  · simp only [createZip]
    cases hfl : flookup (pathJoin dir cfg.output_zip_name) fs with
    | none => simp [buildZip, hopts]
    | some d =>
      cases d with
      | raw s => simp [buildZip, hopts]
      | zipData es b =>
        cases b with
        | none => exact absurd hfl (h es)
        | some bad => simp [buildZip, hopts]
  · obtain ⟨d, hd⟩ := Option.isSome_iff_exists.mp hex
    simp [uploadZip, hd, hopts]
  · rw [processFolders_run cfg cwd w hne]
    have hdl := @downloadFold_all_skip (behSrc w) (localDirOf cfg cwd)
      (listedKeys w cfg) ⟨w.fs, [], [], [], none⟩ rfl hskip
    rw [show downloadFiles (behSrc w) (listedKeys w cfg) (localDirOf cfg cwd)
        w.fs = (⟨w.fs, [],
          [] ++ (listedKeys w cfg).map
            (fun f => pathJoin (localDirOf cfg cwd) (flattenDownload f)),
          [], none⟩ : DLRes) from hdl]
    unfold stageTail
    dsimp only
    have hz : createZip cfg w.fs (localDirOf cfg cwd) =
        ⟨w.fs, zipPathOf cfg cwd, 0, none⟩ := by
      simp only [createZip]
      rw [show pathJoin (localDirOf cfg cwd) cfg.output_zip_name =
          zipPathOf cfg cwd from rfl, hzip]
    rw [hz]
    dsimp only
    have hup : uploadZip cfg w.s3dst w.fs (zipPathOf cfg cwd) =
        ⟨fset (destKey cfg (zipPathOf cfg cwd)) (.zipData es none) w.s3dst,
          [destKey cfg (zipPathOf cfg cwd)], none⟩ := by
      simp [uploadZip, hdst, doUpload, hzip]
    rw [hup]
    dsimp only
    rw [if_neg htot, hopts]

/-- Witness for `missing_options_keyError`: a populated workspace with a
valid archive and absent destination key; the run fails only at cleanup,
with `KeyError`. -/
theorem missing_options_keyError_witness :
    (processFolders
      ⟨"src", "dst", ["a/"], "z.zip", none, none, none⟩ "/w" false
      ⟨[("a/b/x", .raw "hi")], [],
        [("/w/output/b/x", .raw "hi"),
         ("/w/output/z.zip", .zipData [("b/x", .raw "hi")] none)]⟩).err =
      some (.keyError "options") :=
  (missing_options_keyError
    ⟨"src", "dst", ["a/"], "z.zip", none, none, none⟩ rfl).2.2
    "/w"
    ⟨[("a/b/x", .raw "hi")], [],
      [("/w/output/b/x", .raw "hi"),
       ("/w/output/z.zip", .zipData [("b/x", .raw "hi")] none)]⟩
    [("b/x", .raw "hi")] rfl (by decide) rfl rfl (by decide)

/-! ## Claim C10: dry-run destination path vs real destination key -/

theorem strExt {a b : String} (h : a.data = b.data) : a = b :=
  congrArg ofChars h

@[simp] theorem data_ofChars (l : List Char) : (ofChars l).data = l := rfl

theorem takeWhileNe_append (l1 l2 : List Char)
    (h : ∀ c ∈ l1, c ≠ '/') :
    (l1 ++ '/' :: l2).takeWhile (fun c => !(c == '/')) = l1 := by
  induction l1 with
  | nil => simp [List.takeWhile_cons]
  | cons c t ih =>
    have hc : (c == '/') = false :=
      beq_eq_false_iff_ne.mpr (h c (List.mem_cons_self c t))
    have ih2 := ih (fun x hx => h x (List.mem_cons_of_mem c hx))
    simp [List.takeWhile_cons, hc, ih2]

/-- The basename of any path of the shape `pre ++ '/' ++ zn` with a
separator-free tail is the tail. -/
theorem fileBase_afterSlash (pre : List Char) (s : String)
    (h : ∀ c ∈ s.data, c ≠ '/') :
    fileBase (ofChars (pre ++ '/' :: s.data)) = s := by
  unfold fileBase
  show ofChars
    (((pre ++ '/' :: s.data).reverse.takeWhile (fun c => !(c == '/'))).reverse)
    = s
  rw [List.reverse_append, List.reverse_cons, List.append_assoc]
  rw [show (['/'] ++ pre.reverse : List Char) = '/' :: pre.reverse from rfl]
  rw [takeWhileNe_append _ _ (fun c hc => h c (List.mem_reverse.mp hc)),
    List.reverse_reverse]
  rfl

theorem noslash_startsSlash {s : String} (h : ∀ c ∈ s.data, c ≠ '/') :
    startsSlash s = false := by
  unfold startsSlash
  cases hh : s.data.head? with
  | none => simp
  | some c => simp [h c (List.mem_of_mem_head? hh)]

/-- Computing `os.path.basename(os.path.join(d, zn))` recovers `zn` whenever the
archive name is non-empty and separator-free. -/
theorem fileBase_pathJoin (d zn : String) (hne : zn ≠ "")
    (hns : ∀ c ∈ zn.data, c ≠ '/') :
    fileBase (pathJoin d zn) = zn := by
  have hss : startsSlash zn = false := noslash_startsSlash hns
  unfold pathJoin
  rw [hss]
  rw [if_neg (show ¬ (false = true) from Bool.false_ne_true)]
  by_cases hd : ((d == "") || endsSlash d) = true
  · rw [if_pos hd]
    cases hor : (d == "") with
    | true =>
      have hde : d = "" := by simpa using hor
      rw [hde]
      have : ("" ++ zn : String) = zn := by
        apply strExt; simp
      rw [this]
      exact fileBase_noslash hns
    | false =>
      rw [hor] at hd
      simp only [Bool.false_or] at hd
      have h2 : endsSlash d = true := hd
      have hrev : d.data.reverse.head? = some '/' := by
        rw [List.head?_reverse]
        unfold endsSlash at h2
        simpa using h2
      obtain ⟨t, ht⟩ : ∃ t, d.data.reverse = '/' :: t := by
        cases hr : d.data.reverse with
        | nil => rw [hr] at hrev; cases hrev
        | cons c t =>
          rw [hr] at hrev
          simp at hrev
          exact ⟨t, by rw [hrev]⟩
      have hdd : d.data = t.reverse ++ ['/'] := by
        have h3 := congrArg List.reverse ht
        simpa using h3
      have hjoin : (d ++ zn : String) = ofChars (t.reverse ++ '/' :: zn.data) := by
        apply strExt
        simp [hdd, List.append_assoc]
      rw [hjoin, fileBase_afterSlash _ _ hns]
  · rw [if_neg hd]
    have hjoin : (d ++ "/" ++ zn : String) =
        ofChars (d.data ++ '/' :: zn.data) := by
      apply strExt
      simp
    rw [hjoin, fileBase_afterSlash _ _ hns]

theorem replaceBackslash_noop {s : String}
    (h : ∀ c ∈ s.data, c ≠ '\\') : replaceBackslash s = s := by
  unfold replaceBackslash
  suffices h2 : ∀ l : List Char, (∀ c ∈ l, c ≠ '\\') →
      l.map (fun c => if c == '\\' then '/' else c) = l by
    rw [h2 s.data h]
    rfl
  intro l hl
  induction l with
  | nil => rfl
  | cons c t ih =>
    have hc : (c == '\\') = false :=
      beq_eq_false_iff_ne.mpr (hl c (List.mem_cons_self c t))
    simp only [List.map_cons, hc, if_neg (Bool.false_ne_true)]
    rw [ih (fun x hx => hl x (List.mem_cons_of_mem c hx))]

/-- **C10.** For a non-empty destination prefix that does not end with the
separator (and a separator- and backslash-free archive name), the key a
real run uploads to is the prefix joined to the archive name with a
separator, while the dry-run report concatenates them with no separator —
so the destination path a dry run reports differs from the key a real run
uploads to. -/
theorem dry_run_dest_mismatch (cfg : Config) (cwd : String)
    (hdp : cfg.destPfx.getD "" ≠ "")
    (hde : endsSlash (cfg.destPfx.getD "") = false)
    (hdb : ∀ c ∈ (cfg.destPfx.getD "").data, c ≠ '\\')
    (hzn : cfg.output_zip_name ≠ "")
    (hzs : ∀ c ∈ cfg.output_zip_name.data, c ≠ '/')
    (hzb : ∀ c ∈ cfg.output_zip_name.data, c ≠ '\\') :
    destKey cfg (zipPathOf cfg cwd) =
      cfg.destPfx.getD "" ++ "/" ++ cfg.output_zip_name ∧
    simulateDestPath cfg =
      "s3://" ++ cfg.destination_bucket ++ "/" ++
        (cfg.destPfx.getD "" ++ cfg.output_zip_name) ∧
    realDestPath cfg cwd ≠ simulateDestPath cfg := by
  have hkey : destKey cfg (zipPathOf cfg cwd) =
      cfg.destPfx.getD "" ++ "/" ++ cfg.output_zip_name := by
    unfold destKey
    rw [show zipPathOf cfg cwd =
      pathJoin (localDirOf cfg cwd) cfg.output_zip_name from rfl]
    rw [fileBase_pathJoin _ _ hzn hzs]
    have hjoin : pathJoin (cfg.destPfx.getD "") cfg.output_zip_name =
        cfg.destPfx.getD "" ++ "/" ++ cfg.output_zip_name := by
      unfold pathJoin
      rw [noslash_startsSlash hzs,
        if_neg (show ¬ (false = true) from Bool.false_ne_true)]
      have hdb2 : (cfg.destPfx.getD "" == "") = false :=
        beq_eq_false_iff_ne.mpr hdp
      rw [hdb2, hde]
      simp
    rw [hjoin]
    apply replaceBackslash_noop
    intro c hc
    have : c ∈ (cfg.destPfx.getD "").data ++ '/' ::
        cfg.output_zip_name.data := by
      simpa using hc
    rcases List.mem_append.mp this with hm | hm
    · exact hdb c hm
    · rcases List.mem_cons.mp hm with rfl | hm
      · decide
      · exact hzb c hm
  refine ⟨hkey, by apply strExt; simp [simulateDestPath], fun heq => ?_⟩
  have hlen := congrArg (fun s => s.data.length) heq
  unfold realDestPath simulateDestPath at hlen
  rw [hkey] at hlen
  simp [List.length_append] at hlen

/-- Witness for `dry_run_dest_mismatch` at a concrete configuration. -/
theorem dry_run_dest_mismatch_witness :
    destKey ⟨"src", "dst", [], "z.zip", some "pre", none, none⟩
        (zipPathOf ⟨"src", "dst", [], "z.zip", some "pre", none, none⟩ "/w")
      = "pre" ++ "/" ++ "z.zip" ∧
    realDestPath ⟨"src", "dst", [], "z.zip", some "pre", none, none⟩ "/w" ≠
      simulateDestPath ⟨"src", "dst", [], "z.zip", some "pre", none, none⟩ := by
  have h := dry_run_dest_mismatch
    ⟨"src", "dst", [], "z.zip", some "pre", none, none⟩ "/w"
    (by decide) (by decide) (by decide) (by decide) (by decide) (by decide)
  exact ⟨h.1, h.2.2⟩

end S3Zipper
